import Mathlib

/-!
Verification of the parallel feature-annotation core (FAnnotator /
FAnnotatorUDF, file fonduer/features/f_annotator.py; schema mixins in
fonduer/utils/models/annotation.py).  The relational store is embedded as
explicit lists of rows; machine behaviour (SQL deletes, the ondelete CASCADE
foreign key, the UniqueConstraint on key names) is translated into pure Lean
functions over that state.
-/

set_option linter.unusedVariables false

namespace FonduerSpec

/-- Shallow embedding of a Candidate row (external entity, read-only to the
core): a stable identity, a split tag, and the candidate class (table) the
row belongs to. -/
structure Candidate where
  id : Nat
  split : Int
  cls : String
deriving DecidableEq

/-- Shallow embedding of a Feature row (AnnotationMixin in
fonduer/utils/models/annotation.py): parallel ordered sequences of key names
and values, owned by a candidate through a candidate_id foreign key declared
with ondelete CASCADE. -/
structure Feature where
  candidate_id : Nat
  keys : List String
  values : List Int
deriving DecidableEq

/-- Shallow embedding of a FeatureKey row (AnnotationKeyMixin): a name and an
integer group, with group defaulting to 0 and a UniqueConstraint on
(name, group). -/
structure FeatureKey where
  name : String
  group : Int
deriving DecidableEq

/-- The relational store state visible to the core: the candidate table, the
feature table and the feature-key table. -/
structure DB where
  candidates : List Candidate
  features : List Feature
  featureKeys : List FeatureKey
deriving DecidableEq

/-- Deleting candidate rows matching a predicate.  The feature rows that
reference a deleted candidate are removed by the database because the
candidate_id foreign key of AnnotationMixin is declared with
ondelete CASCADE (annotation.py, candidate_id column). -/
def deleteCandidates (db : DB) (p : Candidate → Bool) : DB :=
  { db with
    candidates := db.candidates.filter (fun c => !(p c)),
    features := db.features.filter
      (fun f => !(db.candidates.any (fun c => p c && decide (c.id = f.candidate_id)))) }

/-- One iteration of the loop body of FAnnotator.clear (f_annotator.py lines
72-91): build a query over the candidate class, restrict it to the split's
candidates unless replace_key_set is set, delete the queried rows, and when
replace_key_set is set additionally delete every FeatureKey row. -/
def clearClass (split : Int) (replace_key_set : Bool) (db : DB) (cls : String) : DB :=
  let db' := deleteCandidates db
    (fun c => decide (c.cls = cls) && (replace_key_set || decide (c.split = split)))
  if replace_key_set then { db' with featureKeys := [] } else db'

/-- FAnnotator.clear (f_annotator.py lines 62-91): run the per-class clearing
body once for every registered candidate class. -/
def FAnnotator.clear (classes : List String) (split : Int) (replace_key_set : Bool)
    (db : DB) : DB :=
  classes.foldl (clearClass split replace_key_set) db

/-- FAnnotator.clear_all (f_annotator.py lines 93-96): delete every Feature
row, touching neither candidates nor feature keys. -/
def FAnnotator.clear_all (db : DB) : DB :=
  { db with features := [] }

/-- FAnnotator.load_matrices (f_annotator.py lines 98-102): for each
candidate class it yields the class's table name; the store is never read. -/
def FAnnotator.load_matrices (classes : List String) (split : Int) (db : DB) :
    List String :=
  classes

/-- Test whether some FeatureKey row has the given name; this is the
existence check of f_annotator.py lines 138-142, which filters on the name
column only. -/
def hasKeyName (ks : List FeatureKey) (name : String) : Bool :=
  ks.any (fun k => decide (k.name = name))

/-- Persisting one yielded FeatureKey (f_annotator.py lines 117-120 and 143):
the key is inserted, with the group column taking its default value 0, unless
a key with that name already exists. -/
def addKey (db : DB) (name : String) : DB :=
  if hasKeyName db.featureKeys name then db
  else { db with featureKeys := db.featureKeys ++ [⟨name, 0⟩] }

/-- One iteration of the feature loop of FAnnotatorUDF.apply (f_annotator.py
lines 133-145): a zero-valued feature is skipped entirely; otherwise the key
is created if absent and the (name, value) pair is appended to the parallel
keys and values accumulators. -/
def featStep (acc : DB × List String × List Int) (p : String × Int) :
    DB × List String × List Int :=
  if p.2 = 0 then acc
  else (addKey acc.1 p.1, acc.2.1 ++ [p.1], acc.2.2 ++ [p.2])

/-- The check of f_annotator.py lines 151-157: does a Feature row agree with
every entry of feature_args, i.e. candidate_id, keys and values? -/
def isRow (cid : Nat) (ks : List String) (vs : List Int) (f : Feature) : Bool :=
  decide (f.candidate_id = cid) && decide (f.keys = ks) && decide (f.values = vs)

/-- FAnnotatorUDF.apply for a single candidate (f_annotator.py lines
122-161).  The extraction output get_all_feats, an external pure function, is
the parameter feats.  Objects yielded by the generator are applied to the
store as they are produced (the drain loop of the runner consumes them
serially, spec section 4.4): yielded FeatureKey rows are inserted during the
loop, and the final Feature row is inserted unless clear is false and a row
with identical candidate_id, keys and values already exists. -/
def FAnnotatorUDF.applyOne (feats : Candidate → List (String × Int)) (clear : Bool)
    (db : DB) (c : Candidate) : DB :=
  let r := (feats c).foldl featStep (db, [], [])
  if !clear && r.1.features.any (isRow c.id r.2.1 r.2.2) then r.1
  else { r.1 with features := r.1.features ++ [⟨c.id, r.2.1, r.2.2⟩] }

/-- Modelled from the spec: the UDFRunner dispatch loop (fonduer/utils/udf.py
is not part of the visible sources).  Per spec sections 4.4 and 5 the runner
enqueues the split's candidates and a single serialized consumer applies all
worker writes, so a run over a candidate list is a left fold of the
one-candidate step. -/
def FAnnotatorUDF.applyAll (feats : Candidate → List (String × Int)) (clear : Bool)
    (db : DB) (cs : List Candidate) : DB :=
  cs.foldl (FAnnotatorUDF.applyOne feats clear) db

/-- FAnnotator.apply (f_annotator.py lines 24-60): for every candidate class,
query the candidates of the requested split; when none exist, log and skip
the class; otherwise hand the candidate list to the inherited runner (here
the abstract parameter udfRun, which receives only the candidates and the
split).  The replace_key_set, update_keys and update_values parameters are
bound by the signature and never read, and in particular never forwarded in
kwargs.  Finally load_matrices is returned. -/
def FAnnotator.apply (udfRun : List Candidate → Int → DB → DB) (classes : List String)
    (split : Int) (replace_key_set : Bool) (update_keys : Bool) (update_values : Bool)
    (db : DB) : DB × List String :=
  let db' := classes.foldl (fun db cls =>
    let candidates := db.candidates.filter
      (fun c => decide (c.cls = cls) && decide (c.split = split))
    if candidates.length = 0 then db else udfRun candidates split db) db
  (db', FAnnotator.load_matrices classes split db')

/-- FAnnotator.apply instantiated with the concrete worker, with clear set to
false (so the runner performs no clearing pass, spec section 4.4) and the
remaining flags at their declared defaults. -/
def applyFull (feats : Candidate → List (String × Int)) (classes : List String)
    (split : Int) (db : DB) : DB :=
  (FAnnotator.apply (fun cs sp d => FAnnotatorUDF.applyAll feats false d cs)
    classes split true false true db).1

/-- Keys kept by the sentinel filter of the feature loop, in emission
order. -/
def keysOf (ps : List (String × Int)) : List String :=
  (ps.filter (fun p => !(decide (p.2 = 0)))).map Prod.fst

/-- Values kept by the sentinel filter of the feature loop, in emission
order. -/
def valuesOf (ps : List (String × Int)) : List Int :=
  (ps.filter (fun p => !(decide (p.2 = 0)))).map Prod.snd

/-- The Feature row the worker assembles for a candidate (feature_args of
f_annotator.py lines 130-149). -/
def emittedRow (feats : Candidate → List (String × Int)) (c : Candidate) : Feature :=
  ⟨c.id, keysOf (feats c), valuesOf (feats c)⟩

/-- Folding featStep over the emitted pairs only ever inserts feature
keys. -/
def addKeys (db : DB) (ps : List (String × Int)) : DB :=
  ps.foldl (fun d p => if p.2 = 0 then d else addKey d p.1) db

/-!  Interleaving model of concurrent key creation.  Each worker process runs
the check-then-insert pattern of f_annotator.py lines 137-143 against the
shared key table; the store enforces UniqueConstraint (name, group) from
annotation.py, so an insert of an already-present name with the default
group 0 fails with an integrity error. -/

/-- The shared key-table state seen by the racing workers: the key names
present, and whether some insert has violated the unique constraint. -/
structure KStore where
  names : List String
  integrityError : Bool
deriving DecidableEq

/-- Local state of one worker running the check-then-insert pattern: a
program counter (0 = about to run the existence check, 1 = about to insert
if the check saw no key, 2 = finished) and the recorded check outcome. -/
structure WState where
  pc : Nat
  sawAbsent : Bool
deriving DecidableEq

/-- One atomic step of a worker creating the key called name.  At pc 0 it
runs the existence query (lines 138-142); at pc 1, if the query saw no key,
it inserts the yielded FeatureKey, which the store rejects with an integrity
error when a key of that name meanwhile exists (UniqueConstraint of
annotation.py with the default group 0). -/
def wstep (name : String) : KStore × WState → KStore × WState
  | (g, w) =>
    if w.pc = 0 then (g, ⟨1, !(g.names.any (fun n => decide (n = name)))⟩)
    else if w.pc = 1 then
      (if w.sawAbsent then
        (if g.names.any (fun n => decide (n = name)) then { g with integrityError := true }
         else { g with names := g.names ++ [name] })
       else g,
       { w with pc := 2 })
    else (g, w)

/-- Run a schedule over two workers that both create the key called name;
true schedules a step of worker one, false a step of worker two. -/
def runSched (name : String) : List Bool → KStore × WState × WState → KStore × WState × WState
  | [], s => s
  | b :: rest, (g, w1, w2) =>
    if b then
      let s := wstep name (g, w1)
      runSched name rest (s.1, s.2, w2)
    else
      let s := wstep name (g, w2)
      runSched name rest (s.1, w1, s.2)

/-- Initial state of the key race: no key exists yet and both workers are
about to run their existence check. -/
def raceInit : KStore × WState × WState :=
  (⟨[], false⟩, ⟨0, false⟩, ⟨0, false⟩)

/-!  Concrete store fixtures used in closed counterexamples and witnesses. -/

/-- A candidate in split 0 of class cc. -/
def cand1 : Candidate := ⟨1, 0, ("cc" : String)⟩

/-- A candidate in split 1 of class cc. -/
def cand2 : Candidate := ⟨2, 1, ("cc" : String)⟩

/-- A store holding one candidate of split 0 and no annotations. -/
def dbOneCand : DB := ⟨[cand1], [], []⟩

/-- A store with candidates in splits 0 and 1, one feature row each, and one
feature key. -/
def dbTwoSplits : DB :=
  ⟨[cand1, cand2],
   [⟨1, [("a" : String)], [1]⟩, ⟨2, [("a" : String)], [2]⟩],
   [⟨("a" : String), 0⟩]⟩

/-- Extraction output that emits the key a once with the sentinel value 0 and
once with the value 1, for every candidate. -/
def featsDup : Candidate → List (String × Int) :=
  fun _ => [(("a" : String), 0), (("a" : String), 1)]

/-- Extraction output whose only emitted pair is zero-valued. -/
def featsZero : Candidate → List (String × Int) :=
  fun _ => [(("z" : String), 0)]

/-!  Characterization of the worker's feature loop. -/

theorem keysOf_nil : keysOf [] = [] := rfl

theorem valuesOf_nil : valuesOf [] = [] := rfl

theorem keysOf_cons (p : String × Int) (ps : List (String × Int)) :
    keysOf (p :: ps) = if p.2 = 0 then keysOf ps else p.1 :: keysOf ps := by
  by_cases h : p.2 = 0 <;> simp [keysOf, List.filter_cons, h]

theorem valuesOf_cons (p : String × Int) (ps : List (String × Int)) :
    valuesOf (p :: ps) = if p.2 = 0 then valuesOf ps else p.2 :: valuesOf ps := by
  by_cases h : p.2 = 0 <;> simp [valuesOf, List.filter_cons, h]

theorem featStep_fold (ps : List (String × Int)) (db : DB) (ks : List String)
    (vs : List Int) :
    ps.foldl featStep (db, ks, vs) = (addKeys db ps, ks ++ keysOf ps, vs ++ valuesOf ps) := by
  induction ps generalizing db ks vs with
  | nil => simp [keysOf, valuesOf, addKeys]
  | cons p ps ih =>
    by_cases h : p.2 = 0 <;>
      simp [List.foldl_cons, featStep, h, ih, keysOf_cons, valuesOf_cons, addKeys]

/-- The one-candidate worker step, rewritten through the loop
characterization: it inserts the missing keys of the nonzero pairs, then
either detects an identical existing row (only when clear is false) or
appends the assembled row. -/
theorem applyOne_eq (feats : Candidate → List (String × Int)) (clear : Bool)
    (db : DB) (c : Candidate) :
    FAnnotatorUDF.applyOne feats clear db c =
      if !clear && (addKeys db (feats c)).features.any
          (isRow c.id (keysOf (feats c)) (valuesOf (feats c)))
      then addKeys db (feats c)
      else { addKeys db (feats c) with
             features := (addKeys db (feats c)).features ++ [emittedRow feats c] } := by
  simp [FAnnotatorUDF.applyOne, featStep_fold, emittedRow]

theorem addKey_candidates (db : DB) (n : String) :
    (addKey db n).candidates = db.candidates := by
  unfold addKey; split <;> rfl

theorem addKey_features (db : DB) (n : String) :
    (addKey db n).features = db.features := by
  unfold addKey; split <;> rfl

theorem addKeys_cons (db : DB) (p : String × Int) (ps : List (String × Int)) :
    addKeys db (p :: ps) = addKeys (if p.2 = 0 then db else addKey db p.1) ps := rfl

theorem addKeys_candidates (db : DB) (ps : List (String × Int)) :
    (addKeys db ps).candidates = db.candidates := by
  induction ps generalizing db with
  | nil => rfl
  | cons p ps ih =>
    rw [addKeys_cons]
    by_cases h : p.2 = 0
    · rw [if_pos h, ih]
    · rw [if_neg h, ih, addKey_candidates]

theorem addKeys_features (db : DB) (ps : List (String × Int)) :
    (addKeys db ps).features = db.features := by
  induction ps generalizing db with
  | nil => rfl
  | cons p ps ih =>
    rw [addKeys_cons]
    by_cases h : p.2 = 0
    · rw [if_pos h, ih]
    · rw [if_neg h, ih, addKey_features]

theorem hasKeyName_addKey_mono (db : DB) (n m : String)
    (h : hasKeyName db.featureKeys m = true) :
    hasKeyName (addKey db n).featureKeys m = true := by
  unfold addKey; split
  · exact h
  · simp [hasKeyName, List.any_append] at h ⊢
    exact Or.inl h

theorem hasKeyName_addKey_self (db : DB) (n : String) :
    hasKeyName (addKey db n).featureKeys n = true := by
  unfold addKey; split
  · assumption
  · simp [hasKeyName, List.any_append]

theorem addKey_of_has (db : DB) (n : String) (h : hasKeyName db.featureKeys n = true) :
    addKey db n = db := by
  unfold addKey; simp [h]

theorem hasKeyName_addKeys_mono (db : DB) (ps : List (String × Int)) (m : String)
    (h : hasKeyName db.featureKeys m = true) :
    hasKeyName (addKeys db ps).featureKeys m = true := by
  induction ps generalizing db with
  | nil => exact h
  | cons p ps ih =>
    rw [addKeys_cons]
    by_cases hz : p.2 = 0
    · rw [if_pos hz]; exact ih db h
    · rw [if_neg hz]; exact ih _ (hasKeyName_addKey_mono db p.1 m h)

theorem addKeys_sat (db : DB) (ps : List (String × Int)) :
    ∀ k ∈ keysOf ps, hasKeyName (addKeys db ps).featureKeys k = true := by
  induction ps generalizing db with
  | nil => intro k hk; simp [keysOf] at hk
  | cons p ps ih =>
    intro k hk
    rw [addKeys_cons]
    by_cases hz : p.2 = 0
    · rw [keysOf_cons] at hk
      rw [if_pos hz] at hk ⊢
      exact ih db k hk
    · rw [keysOf_cons] at hk
      rw [if_neg hz] at hk ⊢
      rcases List.mem_cons.mp hk with hk | hk
      · subst hk
        exact hasKeyName_addKeys_mono _ ps p.1 (hasKeyName_addKey_self db p.1)
      · exact ih (addKey db p.1) k hk

theorem addKeys_of_all_has (db : DB) (ps : List (String × Int))
    (h : ∀ k ∈ keysOf ps, hasKeyName db.featureKeys k = true) :
    addKeys db ps = db := by
  induction ps generalizing db with
  | nil => rfl
  | cons p ps ih =>
    rw [addKeys_cons]
    by_cases hz : p.2 = 0
    · rw [keysOf_cons, if_pos hz] at h
      rw [if_pos hz]
      exact ih db h
    · rw [keysOf_cons, if_neg hz] at h
      have hhead : hasKeyName db.featureKeys p.1 = true := h p.1 (List.mem_cons_self _ _)
      have hkeep : addKey db p.1 = db := addKey_of_has db p.1 hhead
      rw [if_neg hz, hkeep]
      exact ih db (fun k hk => h k (List.mem_cons_of_mem _ hk))

theorem isRow_iff (cid : Nat) (ks : List String) (vs : List Int) (f : Feature) :
    isRow cid ks vs f = true ↔ f = Feature.mk cid ks vs := by
  cases f
  simp [isRow, Feature.mk.injEq, and_assoc]

theorem emittedRow_def (feats : Candidate → List (String × Int)) (c : Candidate) :
    emittedRow feats c = Feature.mk c.id (keysOf (feats c)) (valuesOf (feats c)) := rfl

/-- Saturation of a store for a candidate: the row the worker would assemble
is already present and every key the worker would need already exists.  A
saturated store is exactly one on which the one-candidate step is a
no-op. -/
def SatC (feats : Candidate → List (String × Int)) (db : DB) (c : Candidate) : Prop :=
  emittedRow feats c ∈ db.features ∧
  ∀ k ∈ keysOf (feats c), hasKeyName db.featureKeys k = true

theorem applyOne_candidates (feats : Candidate → List (String × Int)) (clear : Bool)
    (db : DB) (c : Candidate) :
    (FAnnotatorUDF.applyOne feats clear db c).candidates = db.candidates := by
  rw [applyOne_eq]
  split
  · exact addKeys_candidates db _
  · exact addKeys_candidates db _

theorem applyOne_features_mono (feats : Candidate → List (String × Int)) (clear : Bool)
    (db : DB) (c : Candidate) (f : Feature) (h : f ∈ db.features) :
    f ∈ (FAnnotatorUDF.applyOne feats clear db c).features := by
  rw [applyOne_eq]
  split
  · rw [addKeys_features]; exact h
  · exact List.mem_append.mpr (Or.inl (by rw [addKeys_features]; exact h))

theorem applyOne_hasKeyName_mono (feats : Candidate → List (String × Int)) (clear : Bool)
    (db : DB) (c : Candidate) (m : String) (h : hasKeyName db.featureKeys m = true) :
    hasKeyName (FAnnotatorUDF.applyOne feats clear db c).featureKeys m = true := by
  rw [applyOne_eq]
  split
  · exact hasKeyName_addKeys_mono db _ m h
  · exact hasKeyName_addKeys_mono db _ m h

theorem applyOne_featureKeys_sat (feats : Candidate → List (String × Int)) (clear : Bool)
    (db : DB) (c : Candidate) :
    ∀ k ∈ keysOf (feats c),
      hasKeyName (FAnnotatorUDF.applyOne feats clear db c).featureKeys k = true := by
  rw [applyOne_eq]
  split <;> intro k hk
  · exact addKeys_sat db _ k hk
  · exact addKeys_sat db _ k hk

theorem applyOne_row_mem (feats : Candidate → List (String × Int)) (db : DB)
    (c : Candidate) :
    emittedRow feats c ∈ (FAnnotatorUDF.applyOne feats false db c).features := by
  rw [applyOne_eq]
  split
  · next hcond =>
    simp only [Bool.not_false, Bool.true_and] at hcond
    rcases List.any_eq_true.mp hcond with ⟨f, hf, hrow⟩
    rw [emittedRow_def]
    rw [(isRow_iff _ _ _ f).mp hrow] at hf
    exact hf
  · exact List.mem_append.mpr (Or.inr (List.mem_singleton.mpr rfl))

theorem applyOne_sat (feats : Candidate → List (String × Int)) (db : DB) (c : Candidate) :
    SatC feats (FAnnotatorUDF.applyOne feats false db c) c :=
  ⟨applyOne_row_mem feats db c, applyOne_featureKeys_sat feats false db c⟩

theorem SatC_applyOne_mono (feats : Candidate → List (String × Int)) (clear : Bool)
    (db : DB) (c c' : Candidate) (h : SatC feats db c) :
    SatC feats (FAnnotatorUDF.applyOne feats clear db c') c :=
  ⟨applyOne_features_mono feats clear db c' _ h.1,
   fun k hk => applyOne_hasKeyName_mono feats clear db c' k (h.2 k hk)⟩

theorem applyOne_of_Sat (feats : Candidate → List (String × Int)) (db : DB)
    (c : Candidate) (h : SatC feats db c) :
    FAnnotatorUDF.applyOne feats false db c = db := by
  rw [applyOne_eq, addKeys_of_all_has db _ h.2]
  have hany : db.features.any (isRow c.id (keysOf (feats c)) (valuesOf (feats c))) = true :=
    List.any_eq_true.mpr ⟨emittedRow feats c, h.1, (isRow_iff _ _ _ _).mpr rfl⟩
  simp [hany]

theorem applyAll_cons (feats : Candidate → List (String × Int)) (clear : Bool)
    (db : DB) (c : Candidate) (cs : List Candidate) :
    FAnnotatorUDF.applyAll feats clear db (c :: cs) =
      FAnnotatorUDF.applyAll feats clear (FAnnotatorUDF.applyOne feats clear db c) cs := rfl

theorem applyAll_candidates (feats : Candidate → List (String × Int)) (clear : Bool)
    (db : DB) (cs : List Candidate) :
    (FAnnotatorUDF.applyAll feats clear db cs).candidates = db.candidates := by
  induction cs generalizing db with
  | nil => rfl
  | cons c cs ih => rw [applyAll_cons, ih, applyOne_candidates]

theorem SatC_applyAll_mono (feats : Candidate → List (String × Int)) (clear : Bool)
    (db : DB) (c : Candidate) (cs : List Candidate) (h : SatC feats db c) :
    SatC feats (FAnnotatorUDF.applyAll feats clear db cs) c := by
  induction cs generalizing db with
  | nil => exact h
  | cons c' cs ih => rw [applyAll_cons]; exact ih _ (SatC_applyOne_mono feats clear db c c' h)

theorem applyAll_sat (feats : Candidate → List (String × Int)) (db : DB)
    (cs : List Candidate) :
    ∀ c ∈ cs, SatC feats (FAnnotatorUDF.applyAll feats false db cs) c := by
  induction cs generalizing db with
  | nil => intro c hc; cases hc
  | cons c' cs ih =>
    intro c hc
    rw [applyAll_cons]
    rcases List.mem_cons.mp hc with h | h
    · subst h
      exact SatC_applyAll_mono feats false _ c cs (applyOne_sat feats db c)
    · exact ih _ c h

theorem applyAll_of_Sat (feats : Candidate → List (String × Int)) (db : DB)
    (cs : List Candidate) (h : ∀ c ∈ cs, SatC feats db c) :
    FAnnotatorUDF.applyAll feats false db cs = db := by
  induction cs with
  | nil => rfl
  | cons c cs ih =>
    rw [applyAll_cons, applyOne_of_Sat feats db c (h c (List.mem_cons_self _ _))]
    exact ih (fun c' hc' => h c' (List.mem_cons_of_mem _ hc'))

/-- The body of the per-class loop of FAnnotator.apply, instantiated with the
concrete worker run: query the class's candidates of the split, skip the
class when the query is empty, and otherwise run the worker over them. -/
def classStep (feats : Candidate → List (String × Int)) (split : Int) (db : DB)
    (cls : String) : DB :=
  if (db.candidates.filter
      (fun c => decide (c.cls = cls) && decide (c.split = split))).length = 0
  then db
  else FAnnotatorUDF.applyAll feats false db
    (db.candidates.filter (fun c => decide (c.cls = cls) && decide (c.split = split)))

theorem applyFull_eq (feats : Candidate → List (String × Int)) (classes : List String)
    (split : Int) (db : DB) :
    applyFull feats classes split db = classes.foldl (classStep feats split) db := rfl

theorem classStep_candidates (feats : Candidate → List (String × Int)) (split : Int)
    (db : DB) (cls : String) :
    (classStep feats split db cls).candidates = db.candidates := by
  unfold classStep
  split
  · rfl
  · exact applyAll_candidates feats false db _

theorem classStep_sat (feats : Candidate → List (String × Int)) (split : Int)
    (db : DB) (cls : String) :
    ∀ c ∈ db.candidates.filter (fun c => decide (c.cls = cls) && decide (c.split = split)),
      SatC feats (classStep feats split db cls) c := by
  intro c hc
  unfold classStep
  split
  · next hlen =>
    rw [List.length_eq_zero] at hlen
    rw [hlen] at hc
    cases hc
  · exact applyAll_sat feats db _ c hc

theorem SatC_classStep_mono (feats : Candidate → List (String × Int)) (split : Int)
    (db : DB) (cls : String) (c : Candidate) (h : SatC feats db c) :
    SatC feats (classStep feats split db cls) c := by
  unfold classStep
  split
  · exact h
  · exact SatC_applyAll_mono feats false db c _ h

theorem classStep_of_Sat (feats : Candidate → List (String × Int)) (split : Int)
    (db : DB) (cls : String)
    (h : ∀ c ∈ db.candidates.filter
      (fun c => decide (c.cls = cls) && decide (c.split = split)), SatC feats db c) :
    classStep feats split db cls = db := by
  unfold classStep
  split
  · rfl
  · exact applyAll_of_Sat feats db _ h

theorem foldl_classStep_candidates (feats : Candidate → List (String × Int))
    (split : Int) (classes : List String) (db : DB) :
    (classes.foldl (classStep feats split) db).candidates = db.candidates := by
  induction classes generalizing db with
  | nil => rfl
  | cons a rest ih => rw [List.foldl_cons, ih, classStep_candidates]

theorem SatC_foldl_classStep_mono (feats : Candidate → List (String × Int))
    (split : Int) (classes : List String) (db : DB) (c : Candidate)
    (h : SatC feats db c) :
    SatC feats (classes.foldl (classStep feats split) db) c := by
  induction classes generalizing db with
  | nil => exact h
  | cons a rest ih =>
    rw [List.foldl_cons]
    exact ih _ (SatC_classStep_mono feats split db a c h)

theorem foldl_classStep_sat (feats : Candidate → List (String × Int)) (split : Int)
    (classes : List String) (db : DB) (cls : String) (hcls : cls ∈ classes) :
    ∀ c ∈ db.candidates.filter (fun c => decide (c.cls = cls) && decide (c.split = split)),
      SatC feats (classes.foldl (classStep feats split) db) c := by
  induction classes generalizing db with
  | nil => cases hcls
  | cons a rest ih =>
    intro c hc
    rw [List.foldl_cons]
    rcases List.mem_cons.mp hcls with h | h
    · subst h
      exact SatC_foldl_classStep_mono feats split rest _ c
        (classStep_sat feats split db cls c hc)
    · have hc' : c ∈ (classStep feats split db a).candidates.filter
          (fun c => decide (c.cls = cls) && decide (c.split = split)) := by
        rw [classStep_candidates]
        exact hc
      exact ih _ h c hc'

theorem foldl_classStep_of_Sat (feats : Candidate → List (String × Int)) (split : Int)
    (classes : List String) (db : DB)
    (h : ∀ cls ∈ classes, ∀ c ∈ db.candidates.filter
      (fun c => decide (c.cls = cls) && decide (c.split = split)), SatC feats db c) :
    classes.foldl (classStep feats split) db = db := by
  induction classes with
  | nil => rfl
  | cons a rest ih =>
    rw [List.foldl_cons, classStep_of_Sat feats split db a (h a (List.mem_cons_self _ _))]
    exact ih (fun cls hcls => h cls (List.mem_cons_of_mem _ hcls))

/-- Claim C4: with clear disabled and the candidate set and extraction
functions unchanged, running apply twice leaves exactly the state of running
it once: on the second run every candidate's assembled (keys, values) row is
found byte-identical in the store and nothing new is stored, so there are no
duplicate rows and no duplicate keys. -/
theorem apply_noclear_idempotent (feats : Candidate → List (String × Int))
    (classes : List String) (split : Int) (db : DB) :
    applyFull feats classes split (applyFull feats classes split db) =
      applyFull feats classes split db := by
  simp only [applyFull_eq]
  apply foldl_classStep_of_Sat
  intro cls hcls c hc
  rw [foldl_classStep_candidates] at hc
  exact foldl_classStep_sat feats split classes db cls hcls c hc

/-!  Characterization of the clear operation. -/

theorem clear_cons (classes : List String) (split : Int) (rks : Bool) (db : DB)
    (a : String) :
    FAnnotator.clear (a :: classes) split rks db =
      FAnnotator.clear classes split rks (clearClass split rks db a) := rfl

theorem clearClass_candidates (split : Int) (rks : Bool) (db : DB) (cls : String) :
    (clearClass split rks db cls).candidates =
      db.candidates.filter
        (fun c => !(decide (c.cls = cls) && (rks || decide (c.split = split)))) := by
  unfold clearClass deleteCandidates
  split <;> rfl

theorem clearClass_features (split : Int) (rks : Bool) (db : DB) (cls : String) :
    (clearClass split rks db cls).features =
      db.features.filter
        (fun f => !(db.candidates.any
          (fun c => (decide (c.cls = cls) && (rks || decide (c.split = split))) &&
            decide (c.id = f.candidate_id)))) := by
  unfold clearClass deleteCandidates
  split <;> rfl

theorem clearClass_featureKeys (split : Int) (rks : Bool) (db : DB) (cls : String) :
    (clearClass split rks db cls).featureKeys =
      if rks then [] else db.featureKeys := by
  unfold clearClass deleteCandidates
  split
  · next h => simp only [h, if_true]
  · next h => simp only [h, if_false, Bool.false_eq_true, ite_false]

theorem clear_features_subset (classes : List String) (split : Int) (rks : Bool)
    (db : DB) (f : Feature)
    (h : f ∈ (FAnnotator.clear classes split rks db).features) :
    f ∈ db.features := by
  induction classes generalizing db with
  | nil => exact h
  | cons a rest ih =>
    rw [clear_cons] at h
    have hmem := ih _ h
    rw [clearClass_features] at hmem
    exact (List.mem_filter.mp hmem).1

theorem clear_featureKeys (classes : List String) (split : Int) (rks : Bool) (db : DB) :
    (FAnnotator.clear classes split rks db).featureKeys =
      if classes.isEmpty || !rks then db.featureKeys else [] := by
  induction classes generalizing db with
  | nil => simp [FAnnotator.clear]
  | cons a rest ih =>
    rw [clear_cons, ih]
    cases rks with
    | false => simp [clearClass_featureKeys]
    | true =>
      simp only [clearClass_featureKeys, if_pos, List.isEmpty_cons, Bool.not_true,
        Bool.or_false]
      by_cases hr : rest.isEmpty = true <;> simp [hr]

/-- Claim C1: with replace_key_set false, clear removes exactly the
annotation rows of the candidates whose split tag equals the requested
split, scoped to the registered candidate classes (the rows disappear
through the ondelete CASCADE of the candidate_id foreign key), and no
annotation row of a candidate of another split is removed. -/
theorem clear_noReplace_deletes_exactly_split (classes : List String) (split : Int)
    (db : DB) (f : Feature) (hf : f ∈ db.features) :
    f ∈ (FAnnotator.clear classes split false db).features ↔
      ¬ ∃ c, c ∈ db.candidates ∧ c.cls ∈ classes ∧ c.split = split ∧
        c.id = f.candidate_id := by
  induction classes generalizing db with
  | nil => simp [FAnnotator.clear, hf]
  | cons a rest ih =>
    rw [clear_cons]
    by_cases hkill : ∃ c, c ∈ db.candidates ∧ c.cls = a ∧ c.split = split ∧
        c.id = f.candidate_id
    · have hnot : f ∉ (clearClass split false db a).features := by
        rw [clearClass_features]
        intro hmem
        rcases List.mem_filter.mp hmem with ⟨_, hb⟩
        rcases hkill with ⟨c, hc, h1, h2, h3⟩
        have hany : db.candidates.any
            (fun c => (decide (c.cls = a) && (false || decide (c.split = split))) &&
              decide (c.id = f.candidate_id)) = true :=
          List.any_eq_true.mpr ⟨c, hc, by simp [h1, h2, h3]⟩
        simp at hb
        exact hb c hc h1 h2 h3
      constructor
      · intro hmem
        exact absurd (clear_features_subset rest split false _ f hmem) hnot
      · intro hno
        exfalso
        apply hno
        rcases hkill with ⟨c, hc, h1, h2, h3⟩
        exact ⟨c, hc, by rw [h1]; exact List.mem_cons_self _ _, h2, h3⟩
    · have hmem : f ∈ (clearClass split false db a).features := by
        rw [clearClass_features]
        apply List.mem_filter.mpr
        refine ⟨hf, ?_⟩
        simp only [Bool.not_eq_true']
        rw [List.any_eq_false]
        intro c hc hpred
        simp only [Bool.false_or, Bool.and_eq_true, decide_eq_true_eq] at hpred
        exact hkill ⟨c, hc, hpred.1.1, hpred.1.2, hpred.2⟩
      rw [ih _ hmem]
      constructor
      · intro hno hex
        rcases hex with ⟨c, hc, h1, h2, h3⟩
        rcases List.mem_cons.mp h1 with h1 | h1
        · exact hkill ⟨c, hc, h1, h2, h3⟩
        · apply hno
          refine ⟨c, ?_, h1, h2, h3⟩
          rw [clearClass_candidates]
          apply List.mem_filter.mpr
          refine ⟨hc, ?_⟩
          simp only [Bool.not_eq_true', Bool.false_or]
          by_cases hca : c.cls = a
          · exact absurd ⟨c, hc, hca, h2, h3⟩ hkill
          · simp [hca]
      · intro hno hex
        rcases hex with ⟨c, hc, h1, h2, h3⟩
        rw [clearClass_candidates] at hc
        exact hno ⟨c, (List.mem_filter.mp hc).1, List.mem_cons_of_mem _ h1, h2, h3⟩

/-- Witness for claim C1: on the two-split store, clearing split 0 with
replace_key_set false keeps the annotation row of the split 1
candidate. -/
theorem clear_noReplace_deletes_exactly_split_witness :
    Feature.mk 2 [("a" : String)] [2] ∈
      (FAnnotator.clear [("cc" : String)] 0 false dbTwoSplits).features :=
  (clear_noReplace_deletes_exactly_split [("cc" : String)] 0 dbTwoSplits
    (Feature.mk 2 [("a" : String)] [2]) (by decide)).mpr (by decide)

theorem clear_true_features_subset (classes : List String) (split : Int) (db : DB)
    (f : Feature) (h : f ∈ (FAnnotator.clear classes split true db).features) :
    f ∈ db.features ∧
      ¬ ∃ c, c ∈ db.candidates ∧ c.cls ∈ classes ∧ c.id = f.candidate_id := by
  induction classes generalizing db with
  | nil =>
    refine ⟨h, ?_⟩
    rintro ⟨c, _, hcls, _⟩
    cases hcls
  | cons a rest ih =>
    rw [clear_cons] at h
    rcases ih _ h with ⟨hmem, hno⟩
    rw [clearClass_features] at hmem
    rcases List.mem_filter.mp hmem with ⟨hdb, hb⟩
    refine ⟨hdb, ?_⟩
    rintro ⟨c, hc, hcls, hid⟩
    by_cases hca : c.cls = a
    · have hany : db.candidates.any
          (fun c => (decide (c.cls = a) && (true || decide (c.split = split))) &&
            decide (c.id = f.candidate_id)) = true :=
        List.any_eq_true.mpr ⟨c, hc, by simp [hca, hid]⟩
      simp at hb
      exact hb c hc hca hid
    · rcases List.mem_cons.mp hcls with h1 | h1
      · exact hca h1
      · apply hno
        refine ⟨c, ?_, h1, hid⟩
        rw [clearClass_candidates]
        exact List.mem_filter.mpr ⟨hc, by simp [hca]⟩

/-- Claim C3: with replace_key_set true, clear deletes every annotation row
of the kind regardless of split and every FeatureKey row, so nothing from
before the clear survives.  The hypotheses record that at least one
candidate class is registered, that every stored candidate belongs to a
registered class, and the referential integrity of the candidate_id foreign
key. -/
theorem clear_replace_removes_all_rows_and_keys (classes : List String) (split : Int)
    (db : DB) (hne : classes ≠ [])
    (hall : ∀ c ∈ db.candidates, c.cls ∈ classes)
    (href : ∀ f ∈ db.features, ∃ c, c ∈ db.candidates ∧ c.id = f.candidate_id) :
    (FAnnotator.clear classes split true db).features = [] ∧
    (FAnnotator.clear classes split true db).featureKeys = [] := by
  constructor
  · rw [List.eq_nil_iff_forall_not_mem]
    intro f hf
    rcases clear_true_features_subset classes split db f hf with ⟨hdb, hno⟩
    rcases href f hdb with ⟨c, hc, hid⟩
    exact hno ⟨c, hc, hall c hc, hid⟩
  · rw [clear_featureKeys]
    cases classes with
    | nil => exact absurd rfl hne
    | cons a rest => simp

/-- Witness for claim C3: clearing split 0 of the two-split store with
replace_key_set true leaves no feature row (the split 1 row included) and no
feature key. -/
theorem clear_replace_removes_all_rows_and_keys_witness :
    (FAnnotator.clear [("cc" : String)] 0 true dbTwoSplits).features = [] ∧
    (FAnnotator.clear [("cc" : String)] 0 true dbTwoSplits).featureKeys = [] :=
  clear_replace_removes_all_rows_and_keys [("cc" : String)] 0 dbTwoSplits
    (by decide) (by decide) (by decide)

/-!  Claim C2: the clear operation, contrary to the docstring "Delete
Features of each class from the database" and to the spec's frame condition
on candidates, queries the candidate class itself and deletes its rows, so a
candidate of the cleared split is removed from the store. -/

/-- Claim C2 (code bug evidence): on a store holding a single candidate of
split 0 and class cc, FAnnotator.clear for split 0 with replace_key_set
false deletes that Candidate row, so the core does delete candidates. -/
theorem clear_deletes_candidate_rows :
    dbOneCand.candidates = [cand1] ∧
    (FAnnotator.clear [("cc" : String)] 0 false dbOneCand).candidates = [] := by
  decide

/-- Claim C5 (code bug evidence): scheduling both existence checks of the
check-then-insert pattern before either insert makes the second insert hit
the (name, group) unique constraint, so a correctness-visible integrity
error is raised where the claim demands that the loser silently observe the
winner's key. -/
theorem key_race_raises_integrity_error :
    (runSched ("foo" : String) [true, false, true, false] raceInit).1.integrityError = true ∧
    (runSched ("foo" : String) [true, true, false, false] raceInit).1 =
      ⟨[("foo" : String)], false⟩ := by
  decide

/-- Claim C6 (code bug evidence): load_matrices yields only each candidate
class's table name and never reads the store, so on the end-to-end store of
section 8 (two candidates with values 1 and 2 under key a) it returns the
string cc instead of a 2-by-1 matrix with values 1 and 2. -/
theorem load_matrices_returns_table_names :
    FAnnotator.load_matrices [("cc" : String)] 0 dbTwoSplits = [("cc" : String)] ∧
    FAnnotator.load_matrices [("cc" : String)] 0 dbOneCand = [("cc" : String)] := by
  decide

/-!  The emitted row: pairing, ordering and sentinel filtering. -/

theorem applyOne_new_row (feats : Candidate → List (String × Int)) (clear : Bool)
    (db : DB) (c : Candidate) (r : Feature)
    (hr : r ∈ (FAnnotatorUDF.applyOne feats clear db c).features)
    (hnew : r ∉ db.features) : r = emittedRow feats c := by
  rw [applyOne_eq] at hr
  split at hr
  · rw [addKeys_features] at hr
    exact absurd hr hnew
  · rcases List.mem_append.mp hr with h | h
    · rw [addKeys_features] at h
      exact absurd h hnew
    · exact List.mem_singleton.mp h

theorem keysOf_zip_valuesOf (ps : List (String × Int)) :
    (keysOf ps).zip (valuesOf ps) = ps.filter (fun p => !(decide (p.2 = 0))) := by
  unfold keysOf valuesOf
  rw [List.zip_map']
  simp

theorem keysOf_length_eq (ps : List (String × Int)) :
    (keysOf ps).length = (valuesOf ps).length := by
  simp [keysOf, valuesOf]

/-- Claim C8: every annotation row the worker emits has keys and values
sequences of equal length, and the list of its (key, value) positions is
exactly the sequence of pairs the extraction functions emitted for the
candidate after filtering out the zero sentinel, in emission order. -/
theorem emitted_row_pairs_match_filtered (feats : Candidate → List (String × Int))
    (clear : Bool) (db : DB) (c : Candidate) (r : Feature)
    (hr : r ∈ (FAnnotatorUDF.applyOne feats clear db c).features)
    (hnew : r ∉ db.features) :
    r.keys.length = r.values.length ∧
    r.keys.zip r.values = (feats c).filter (fun p => !(decide (p.2 = 0))) := by
  have hrow := applyOne_new_row feats clear db c r hr hnew
  subst hrow
  exact ⟨keysOf_length_eq (feats c), keysOf_zip_valuesOf (feats c)⟩

/-- Witness for claim C8: on the store holding one candidate, the row the
worker stores for the duplicate-key extraction output pairs the single
surviving key a with the single surviving value 1, matching the filtered
emission. -/
theorem emitted_row_pairs_match_filtered_witness :
    (Feature.mk 1 [("a" : String)] [1]).keys.length =
      (Feature.mk 1 [("a" : String)] [1]).values.length ∧
    (Feature.mk 1 [("a" : String)] [1]).keys.zip
        (Feature.mk 1 [("a" : String)] [1]).values =
      (featsDup cand1).filter (fun p => !(decide (p.2 = 0))) :=
  emitted_row_pairs_match_filtered featsDup false dbOneCand cand1
    (Feature.mk 1 [("a" : String)] [1]) (by decide) (by decide)

/-- Claim C7 counterexample: the extraction output featsDup emits the pair
(a, 0), yet the stored keys sequence of the candidate does contain the key
a, because the same run also emits (a, 1); so the claim's "the candidate's
stored keys sequence does not contain that key" is false as stated. -/
theorem zero_pair_key_still_stored :
    (("a" : String), (0 : Int)) ∈ featsDup cand1 ∧
    (FAnnotatorUDF.applyOne featsDup false dbOneCand cand1).features =
      [Feature.mk 1 [("a" : String)] [1]] ∧
    ∀ r ∈ (FAnnotatorUDF.applyOne featsDup false dbOneCand cand1).features,
      ("a" : String) ∈ r.keys := by
  decide

/-- Claim C7 as amended: a zero-valued pair (k, 0) is itself never stored —
no position of the stored row pairs the key k with the value 0 — and the key
k appears in the stored keys sequence only if the extraction functions also
emitted some nonzero value for k. -/
theorem zero_pairs_filtered_from_row (feats : Candidate → List (String × Int))
    (clear : Bool) (db : DB) (c : Candidate) (r : Feature) (k : String)
    (hr : r ∈ (FAnnotatorUDF.applyOne feats clear db c).features)
    (hnew : r ∉ db.features) (hk : (k, (0 : Int)) ∈ feats c) :
    (k, (0 : Int)) ∉ r.keys.zip r.values ∧
    ((∀ v, (k, v) ∈ feats c → v = 0) → k ∉ r.keys) := by
  have hrow := applyOne_new_row feats clear db c r hr hnew
  subst hrow
  constructor
  · rw [emittedRow_def]
    intro hmem
    rw [show (Feature.mk c.id (keysOf (feats c)) (valuesOf (feats c))).keys = keysOf (feats c) from rfl,
      show (Feature.mk c.id (keysOf (feats c)) (valuesOf (feats c))).values = valuesOf (feats c) from rfl,
      keysOf_zip_valuesOf] at hmem
    rcases List.mem_filter.mp hmem with ⟨_, hbad⟩
    simp at hbad
  · intro hall hkmem
    rw [emittedRow_def] at hkmem
    rw [show (Feature.mk c.id (keysOf (feats c)) (valuesOf (feats c))).keys = keysOf (feats c) from rfl] at hkmem
    unfold keysOf at hkmem
    rcases List.mem_map.mp hkmem with ⟨p, hp, hfst⟩
    rcases List.mem_filter.mp hp with ⟨hpin, hnz⟩
    have hp0 : p.2 = 0 := by
      apply hall p.2
      have : p = (k, p.2) := by
        cases p
        simp at hfst ⊢
        exact hfst
      rw [← this]
      exact hpin
    simp [hp0] at hnz

/-- Witness for the amended claim C7: instantiated on the duplicate-key
output, the stored row has no position pairing a with 0. -/
theorem zero_pairs_filtered_from_row_witness :
    ((("a" : String), (0 : Int)) ∉
      (Feature.mk 1 [("a" : String)] [1]).keys.zip
        (Feature.mk 1 [("a" : String)] [1]).values) ∧
    ((∀ v, ((("a" : String), v) ∈ featsDup cand1) → v = 0) →
      ("a" : String) ∉ (Feature.mk 1 [("a" : String)] [1]).keys) :=
  zero_pairs_filtered_from_row featsDup false dbOneCand cand1
    (Feature.mk 1 [("a" : String)] [1]) ("a" : String)
    (by decide) (by decide) (by decide)

/-- Claim C9: when every pair the extraction functions emit for a candidate
is zero-valued, the worker still assembles and yields a row with empty keys
and values, and on a first run with clear false (no identical row present)
that empty row is appended to the store. -/
theorem all_zero_candidate_stores_empty_row (feats : Candidate → List (String × Int))
    (db : DB) (c : Candidate)
    (hz : ∀ p ∈ feats c, p.2 = (0 : Int))
    (hfirst : ∀ r ∈ db.features,
      ¬(r.candidate_id = c.id ∧ r.keys = ([] : List String) ∧
        r.values = ([] : List Int))) :
    (FAnnotatorUDF.applyOne feats false db c).features =
      db.features ++ [Feature.mk c.id [] []] := by
  have hkeys : keysOf (feats c) = [] := by
    unfold keysOf
    rw [List.filter_eq_nil_iff.mpr (fun p hp => by simp [hz p hp])]
    rfl
  have hvals : valuesOf (feats c) = [] := by
    unfold valuesOf
    rw [List.filter_eq_nil_iff.mpr (fun p hp => by simp [hz p hp])]
    rfl
  have haddk : addKeys db (feats c) = db :=
    addKeys_of_all_has db _ (by rw [hkeys]; intro k hk; cases hk)
  have hany : db.features.any (isRow c.id [] []) = false := by
    rw [List.any_eq_false]
    intro r hrf hrow
    exact hfirst r hrf ((Feature.mk.injEq _ _ _ _ _ _).mp ((isRow_iff _ _ _ r).mp hrow))
  rw [applyOne_eq, haddk, hkeys, hvals]
  simp only [hany, Bool.not_false, Bool.true_and, Bool.false_eq_true, if_false]
  rw [emittedRow_def, hkeys, hvals]

/-- Witness for claim C9: a candidate whose only emitted pair is zero-valued
gets an empty row appended on a store that has no row for it yet. -/
theorem all_zero_candidate_stores_empty_row_witness :
    (FAnnotatorUDF.applyOne featsZero false dbOneCand cand1).features =
      dbOneCand.features ++ [Feature.mk 1 [] []] :=
  all_zero_candidate_stores_empty_row featsZero dbOneCand cand1
    (by decide) (by decide)

/-- Claim C10: FAnnotator.apply binds replace_key_set, update_keys and
update_values in its signature but never reads them, so for every store,
every candidate-class list, every split and every runner behaviour, two
calls differing only in those three arguments produce identical states and
identical return values. -/
theorem apply_independent_of_key_flags
    (udfRun : List Candidate → Int → DB → DB) (classes : List String) (split : Int)
    (rks rks' uk uk' uv uv' : Bool) (db : DB) :
    FAnnotator.apply udfRun classes split rks uk uv db =
      FAnnotator.apply udfRun classes split rks' uk' uv' db := by
  rfl

end FonduerSpec
